import Mathlib

/-!
Shallow embedding of `src/src/vector.hpp` (namespace `sjtu`, class
`vector<T>`): a contiguous dynamically sized sequence with positional
insert/erase, geometric capacity doubling, and (owner, index) iterators.

Modelling conventions:
* The live prefix of the buffer (slots `[0, sz)`) is a `List α`; `sz` is its
  length.  Slots `[sz, cap)` are uninitialized and carry no values, so the
  state keeps only the capacity `cap` and whether the buffer handle is
  non-null (`hasBuf`).
* `size_t` arithmetic is modelled with `Nat`.  Every subtraction performed by
  the code happens under a guard that rules out wrap-around, and capacities
  never approach `2^64` on the inputs the claims quantify over.
* `T`'s copy constructor may throw; it is modelled as a fallible function
  `copy : α → Option α`, applied exactly where the code copy-constructs
  (`new (p) T(src)`).  Element copy-assignment (`operator=` on `T`) inside the
  shift loops is modelled as `List.set` (value replacement); no claim
  concerns an assignment that throws.  `pureCopy` instantiates `copy` for an
  element type whose copies never fail (e.g. `int`).
* Exceptions are modelled by `Except VErr`; each operation returns its
  outcome together with the post-call state, so "fails and leaves the
  sequence unchanged" is a provable statement, not a convention.
* Iterators are `(owner, idx)` pairs; the owning object's identity
  (`this` pointer) is modelled as a `Nat` id passed to each member function.
-/

namespace VectorHpp

/-- The error kinds surfaced by the container.  `exceptions.hpp` is not part
of the sources; the four named kinds are modelled from the spec (§4.4), and
`elemCopyFailed` stands for "whatever error `T`'s copy surfaces". -/
inductive VErr where
  | indexOutOfBound
  | containerIsEmpty
  | invalidIterator
  | allocationFailed
  | elemCopyFailed
deriving DecidableEq

/-- State of a `sjtu::vector<T>`: live elements (the constructed prefix of
the buffer), capacity `cap_`, and whether `data_` is non-null. -/
structure Vec (α : Type) where
  data : List α
  cap : Nat
  hasBuf : Bool
deriving DecidableEq

/-- A default-constructed vector: `data_ = nullptr, sz_ = 0, cap_ = 0`. -/
def emptyVec (α : Type) : Vec α := ⟨[], 0, false⟩

/-- An iterator: the owning vector's identity (`owner`, the `this` pointer of
the owner, modelled as a `Nat` id) and a position `idx`. -/
structure Iter where
  owner : Nat
  idx : Nat
deriving DecidableEq

/-- `end()`: an iterator to position `sz_` of the vector with id `self`. -/
def endIt (self : Nat) {α : Type} (v : Vec α) : Iter := ⟨self, v.data.length⟩

/-- The copy function of an element type whose copy constructor never
throws. -/
def pureCopy {α : Type} : α → Option α := fun a => some a

/-- A handle returned by the raw allocator: null, or a non-null block of the
given number of bytes. -/
inductive Handle where
  | null
  | block (bytes : Nat)
deriving DecidableEq

/-- Model of the C++ global `::operator new(bytes)` (throwing form), the
allocator `raw_alloc` delegates to.  It is not part of the sources; modelled
from the C++ standard: when the request can be served it returns a pointer to
a block of `bytes` bytes — non-null even for `bytes = 0` — and otherwise it
throws `std::bad_alloc`, surfaced as the spec's `AllocationFailed` kind.
`avail` abstracts whether storage for a request of a given size is available.
The `Nat` component counts allocator invocations performed by the call. -/
def opNew (avail : Nat → Bool) (bytes : Nat) : Except VErr Handle × Nat :=
  if avail bytes then (.ok (.block bytes), 1) else (.error .allocationFailed, 1)

/-- `raw_alloc`: `static T *raw_alloc(size_t n) { return
(T *)::operator new(n * sizeof(T)); }`.  It forwards `n * sizeof(T)` bytes to
`::operator new` unconditionally — there is no special case for `n == 0`. -/
def rawAlloc (avail : Nat → Bool) (sizeofT n : Nat) : Except VErr Handle × Nat :=
  opNew avail (n * sizeofT)

/-- The doubling loop of `ensure_capacity`:
`size_t ncap = cap_ ? cap_ : 1; while (ncap < need) ncap <<= 1;`.
This function is the loop alone, applied to the initial `ncap`; the call site
always passes `ncap ≥ 1`, and the `ncap = 0` branch (on which the C++ loop
would not terminate either) exists only for totality. -/
def growLoop (ncap need : Nat) : Nat :=
  if ncap < need then
    if ncap = 0 then 0 else growLoop (ncap * 2) need
  else ncap
termination_by need - ncap
decreasing_by omega

/-- Copy-construct the elements of a list one by one in index order with the
fallible element copy `copy`; the first failing copy aborts the whole run
(`none`), as a throwing `T` copy constructor does. -/
def copyElems {α : Type} (copy : α → Option α) : List α → Option (List α)
  | [] => some []
  | x :: xs =>
    match copy x with
    | none => none
    | some y =>
      match copyElems copy xs with
      | none => none
      | some ys => some (y :: ys)

/-- `ensure_capacity(need)`.  Returns `(succeeded, post-state)`.  If
`need ≤ cap_` it is a no-op.  Otherwise it computes the doubled capacity,
allocates a fresh buffer and copy-constructs every live element into it in
index order; if the `i`-th copy throws, the code destroys the `i` new slots
already built, frees the new buffer and rethrows, leaving the vector exactly
as it was — hence `(false, v)`.  On success the old elements are destroyed,
the old buffer freed, and the new buffer and capacity adopted. -/
def ensureCapacity {α : Type} (copy : α → Option α) (v : Vec α) (need : Nat) :
    Bool × Vec α :=
  if need ≤ v.cap then (true, v)
  else
    let ncap := growLoop (if v.cap = 0 then 1 else v.cap) need
    match copyElems copy v.data with
    | none => (false, v)
    | some nd => (true, ⟨nd, ncap, true⟩)

/-- The right-shift loop of `insert`:
`for (size_t i = sz_ - 1; i > ind; --i) data_[i] = data_[i - 1];`
applied to the buffer `l` starting at index `i`.  The `none` fallback is
unreachable at the call site (`i - 1 < l.length` throughout). -/
def shiftLoop {α : Type} (ind : Nat) (l : List α) (i : Nat) : List α :=
  if ind < i then
    match l[i - 1]? with
    | some x => shiftLoop ind (l.set i x) (i - 1)
    | none => l
  else l
termination_by i

/-- The left-shift loop of `erase`:
`for (size_t i = ind; i + 1 < sz_; ++i) data_[i] = data_[i + 1];`
over the buffer `l` (whose length is `sz_`).  The `none` fallback is
unreachable (`i + 1 < l.length` is the loop guard). -/
def eraseLoop {α : Type} (l : List α) (i : Nat) : List α :=
  if i + 1 < l.length then
    match l[i + 1]? with
    | some x => eraseLoop (l.set i x) (i + 1)
    | none => l
  else l
termination_by l.length - i

/-- `insert(const size_t &ind, const T &value)`.  Checks `ind > sz_`, ensures
capacity for `sz_ + 1`, then either copy-constructs `value` at slot `sz_`
(end case) or copy-constructs the last element into slot `sz_`, shifts
`[ind + 1, sz_]` right by assignment in descending index order, and assigns
`value` into slot `ind`.  Returns an iterator to `ind`. -/
def insertAt {α : Type} (copy : α → Option α) (self : Nat) (v : Vec α)
    (ind : Nat) (value : α) : Except VErr Iter × Vec α :=
  if ind > v.data.length then (.error .indexOutOfBound, v)
  else
    match ensureCapacity copy v (v.data.length + 1) with
    | (false, v1) => (.error .elemCopyFailed, v1)
    | (true, v1) =>
      if ind = v1.data.length then
        match copy value with
        | none => (.error .elemCopyFailed, v1)
        | some y => (.ok ⟨self, ind⟩, { v1 with data := v1.data ++ [y] })
      else
        match v1.data[v1.data.length - 1]? with
        | none => (.error .elemCopyFailed, v1)
        | some last =>
          match copy last with
          | none => (.error .elemCopyFailed, v1)
          | some y =>
            let shifted := shiftLoop ind (v1.data ++ [y]) (v1.data.length - 1)
            (.ok ⟨self, ind⟩, { v1 with data := shifted.set ind value })

/-- `insert(iterator pos, const T &value)`: owner check, then delegate to the
index-based `insert` with `pos.idx`. -/
def insertIt {α : Type} (copy : α → Option α) (self : Nat) (v : Vec α)
    (pos : Iter) (value : α) : Except VErr Iter × Vec α :=
  if pos.owner ≠ self then (.error .invalidIterator, v)
  else insertAt copy self v pos.idx value

/-- `erase(iterator pos)`.  Rejects a foreign owner or `idx ≥ sz_` with
`invalid_iterator`.  If the position is the last element, destroy it,
decrement `sz_` and return `end()`; otherwise shift `[ind, sz_ - 2]` left by
assignment in ascending order, destroy slot `sz_ - 1`, decrement `sz_`, and
return an iterator to `ind`. -/
def eraseIt {α : Type} (self : Nat) (v : Vec α) (pos : Iter) :
    Except VErr Iter × Vec α :=
  if pos.owner ≠ self ∨ v.data.length ≤ pos.idx then (.error .invalidIterator, v)
  else if pos.idx = v.data.length - 1 then
    (.ok ⟨self, v.data.length - 1⟩, { v with data := v.data.dropLast })
  else
    (.ok ⟨self, pos.idx⟩, { v with data := (eraseLoop v.data pos.idx).dropLast })

/-- `erase(const size_t &ind)`: bounds check (`index_out_of_bound`), then
delegate to `erase(iterator(this, ind))`. -/
def eraseAt {α : Type} (self : Nat) (v : Vec α) (ind : Nat) :
    Except VErr Iter × Vec α :=
  if v.data.length ≤ ind then (.error .indexOutOfBound, v)
  else eraseIt self v ⟨self, ind⟩

/-- `push_back(const T &value)`: ensure capacity for `sz_ + 1`,
copy-construct `value` at slot `sz_`, increment `sz_`. -/
def pushBack {α : Type} (copy : α → Option α) (v : Vec α) (value : α) :
    Except VErr Unit × Vec α :=
  match ensureCapacity copy v (v.data.length + 1) with
  | (false, v1) => (.error .elemCopyFailed, v1)
  | (true, v1) =>
    match copy value with
    | none => (.error .elemCopyFailed, v1)
    | some y => (.ok (), { v1 with data := v1.data ++ [y] })

/-- `pop_back()`: `container_is_empty` on an empty vector, otherwise
decrement `sz_` and destroy the former last slot. -/
def popBack {α : Type} (v : Vec α) : Except VErr Unit × Vec α :=
  if v.data.length = 0 then (.error .containerIsEmpty, v)
  else (.ok (), { v with data := v.data.dropLast })

/-- `clear()`: destroy every live element; size becomes 0, buffer and
capacity retained. -/
def clearOp {α : Type} (v : Vec α) : Vec α := { v with data := [] }

/-- The copy constructor `vector(const vector &other)`.  An empty source
yields the default state (null buffer, `cap_ = 0`).  Otherwise a buffer of
exactly `other.sz_` slots is allocated (`cap_ = other.sz_`, not
`other.cap_`) and the elements are copy-constructed in index order; if one
copy throws, the partial buffer is torn down and freed and the exception
propagates (`none`). -/
def copyCtor {α : Type} (copy : α → Option α) (other : Vec α) : Option (Vec α) :=
  if other.data.length = 0 then some ⟨[], 0, false⟩
  else
    match copyElems copy other.data with
    | none => none
    | some nd => some ⟨nd, other.data.length, true⟩

/-- `operator=`: `if (this == &other) return *this; vector tmp(other);
swap(tmp); return *this;`.  `sameObj` models the pointer identity test
`this == &other`; `dst` is `*this` and `src` is `other`.  Returns
`(succeeded, post-state of *this)`: if constructing the temporary copy
throws, the swap never runs and `*this` is untouched. -/
def assignOp {α : Type} (copy : α → Option α) (sameObj : Bool)
    (dst src : Vec α) : Bool × Vec α :=
  if sameObj then (true, dst)
  else
    match copyCtor copy src with
    | none => (false, dst)
    | some tmp => (true, tmp)

/-- `swap(vector &rhs)`: exchange `data_`, `sz_`, `cap_` field by field. -/
def swapOp {α : Type} (a b : Vec α) : Vec α × Vec α :=
  (⟨b.data, b.cap, b.hasBuf⟩, ⟨a.data, a.cap, a.hasBuf⟩)

/-- The state `ensure_capacity(need)` leaves behind when every element copy
succeeds (the only behaviour an infallible element type can exhibit): data
unchanged, capacity grown by doubling when `need > cap_`. -/
def ensuredPure {α : Type} (v : Vec α) (need : Nat) : Vec α :=
  if need ≤ v.cap then v
  else ⟨v.data, growLoop (if v.cap = 0 then 1 else v.cap) need, true⟩

/-- First and third clauses of the spec's §3 invariant: the size never
exceeds the capacity, and the buffer handle is null exactly when the
capacity is zero. -/
def goodState {α : Type} (v : Vec α) : Prop :=
  v.data.length ≤ v.cap ∧ (v.hasBuf = false ↔ v.cap = 0)

/-- The remaining clause of the §3 invariant: the capacity is zero or a
power of two. -/
def pow2cap {α : Type} (v : Vec α) : Prop :=
  v.cap = 0 ∨ ∃ k : Nat, v.cap = 2 ^ k

/-- States reachable from a default-constructed vector by finite sequences
of the public mutating operations, for an infallible element type.  `copy`
is the copy constructor, `assign` is `operator=` (`same` models the pointer
test `this == &other`), and both vectors resulting from a `swap` are
reachable. -/
inductive Reach {α : Type} : Vec α → Prop where
  | empty : Reach (emptyVec α)
  | push (v : Vec α) (x : α) : Reach v → Reach (pushBack pureCopy v x).2
  | pop (v : Vec α) : Reach v → Reach (popBack v).2
  | ins (v : Vec α) (ind : Nat) (x : α) :
      Reach v → Reach (insertAt pureCopy 0 v ind x).2
  | insIt (v : Vec α) (pos : Iter) (x : α) :
      Reach v → Reach (insertIt pureCopy 0 v pos x).2
  | er (v : Vec α) (ind : Nat) : Reach v → Reach (eraseAt 0 v ind).2
  | erIt (v : Vec α) (pos : Iter) : Reach v → Reach (eraseIt 0 v pos).2
  | clr (v : Vec α) : Reach v → Reach (clearOp v)
  | copy (c w : Vec α) : Reach w → copyCtor pureCopy w = some c → Reach c
  | assign (v w : Vec α) (same : Bool) :
      Reach v → Reach w → Reach (assignOp pureCopy same v w).2
  | swapL (v w : Vec α) : Reach v → Reach w → Reach (swapOp v w).1
  | swapR (v w : Vec α) : Reach v → Reach w → Reach (swapOp v w).2

/-- Like `Reach`, but without the copy constructor and copy assignment (the
two operations that set the capacity to a source's size instead of
doubling). -/
inductive ReachNC {α : Type} : Vec α → Prop where
  | empty : ReachNC (emptyVec α)
  | push (v : Vec α) (x : α) : ReachNC v → ReachNC (pushBack pureCopy v x).2
  | pop (v : Vec α) : ReachNC v → ReachNC (popBack v).2
  | ins (v : Vec α) (ind : Nat) (x : α) :
      ReachNC v → ReachNC (insertAt pureCopy 0 v ind x).2
  | insIt (v : Vec α) (pos : Iter) (x : α) :
      ReachNC v → ReachNC (insertIt pureCopy 0 v pos x).2
  | er (v : Vec α) (ind : Nat) : ReachNC v → ReachNC (eraseAt 0 v ind).2
  | erIt (v : Vec α) (pos : Iter) : ReachNC v → ReachNC (eraseIt 0 v pos).2
  | clr (v : Vec α) : ReachNC v → ReachNC (clearOp v)
  | swapL (v w : Vec α) : ReachNC v → ReachNC w → ReachNC (swapOp v w).1
  | swapR (v w : Vec α) : ReachNC v → ReachNC w → ReachNC (swapOp v w).2

/-! ## Helper lemmas -/

/-- An infallible element copy copies a list verbatim. -/
theorem copyElems_pure {α : Type} (l : List α) : copyElems pureCopy l = some l := by
  induction l with
  | nil => rfl
  | cons x xs ih => simp [copyElems, pureCopy, ih]

/-- A successful element-wise copy preserves the number of elements. -/
theorem copyElems_length {α : Type} (copy : α → Option α) :
    ∀ l l2 : List α, copyElems copy l = some l2 → l2.length = l.length := by
  intro l
  induction l with
  | nil => intro l2 h; simp [copyElems] at h; simp [← h]
  | cons x xs ih =>
    intro l2 h
    simp only [copyElems] at h
    cases hx : copy x with
    | none => rw [hx] at h; exact absurd h (by simp)
    | some y =>
      rw [hx] at h
      cases hxs : copyElems copy xs with
      | none => rw [hxs] at h; exact absurd h (by simp)
      | some ys =>
        rw [hxs] at h
        simp only [Option.some.injEq] at h
        simp [← h, ih ys hxs]

/-- Characterization of the doubling loop: starting from `m ≥ 1` it returns
the first value of the form `m * 2 ^ k` that reaches `need`. -/
theorem growLoop_spec :
    ∀ (d m need : Nat), need - m ≤ d → 1 ≤ m →
      ∃ k : Nat, growLoop m need = m * 2 ^ k ∧ need ≤ m * 2 ^ k ∧
        ∀ j : Nat, j < k → m * 2 ^ j < need := by
  intro d
  induction d with
  | zero =>
    intro m need hd hm
    have hle : need ≤ m := by omega
    refine ⟨0, ?_, by simpa using hle, by omega⟩
    rw [growLoop]
    simp [Nat.not_lt.mpr hle]
  | succ d ih =>
    intro m need hd hm
    by_cases h : m < need
    · have hstep : growLoop m need = growLoop (m * 2) need := by
        rw [growLoop]
        rw [if_pos h, if_neg (by omega : ¬ m = 0)]
      obtain ⟨k, hk1, hk2, hk3⟩ := ih (m * 2) need (by omega) (by omega)
      refine ⟨k + 1, ?_, ?_, ?_⟩
      · rw [hstep, hk1]; ring
      · calc need ≤ m * 2 * 2 ^ k := hk2
          _ = m * 2 ^ (k + 1) := by ring
      · intro j hj
        cases j with
        | zero => simpa using h
        | succ j' =>
          have := hk3 j' (by omega)
          calc m * 2 ^ (j' + 1) = m * 2 * 2 ^ j' := by ring
            _ < need := this
    · have hle : need ≤ m := by omega
      refine ⟨0, ?_, by simpa using hle, by omega⟩
      rw [growLoop]
      simp [Nat.not_lt.mpr hle]

/-- Taking a prefix that ends at or before a `set` position ignores the
`set`. -/
theorem take_set_of_le {α : Type} (a : α) {n m : Nat} (l : List α) (h : m ≤ n) :
    (l.set n a).take m = l.take m := by
  rw [List.set_take]
  exact List.set_eq_of_length_le
    (le_trans (by rw [List.length_take]; exact Nat.min_le_left _ _) h)

/-- Setting the very last taken position rewrites it:
`(l.take (i + 1)).set i x = l.take i ++ [x]` for an in-range `i`. -/
theorem take_succ_set_last {α : Type} (l : List α) (i : Nat) (x : α)
    (h : i < l.length) :
    (l.take (i + 1)).set i x = l.take i ++ [x] := by
  rw [← List.take_concat_get l i h, List.concat_eq_append,
    List.set_append_right _ _ (by rw [List.length_take]; omega)]
  congr 1
  have : i - (l.take i).length = 0 := by rw [List.length_take]; omega
  rw [this]
  rfl

/-- What the right-shift loop of `insert` computes, stated for a start index
`ind + d` inside the buffer: positions `≤ ind` are untouched, positions
`(ind, ind + d]` receive the element one slot to their left, positions
`> ind + d` are untouched. -/
theorem shiftLoop_eq {α : Type} (ind : Nat) :
    ∀ (d : Nat) (l : List α), ind + d < l.length →
      shiftLoop ind l (ind + d) =
        l.take (ind + 1) ++ (l.take (ind + d)).drop ind ++ l.drop (ind + d + 1) := by
  intro d
  induction d with
  | zero =>
    intro l hl
    rw [shiftLoop]
    rw [if_neg (by omega : ¬ ind < ind + 0)]
    have h1 : (l.take (ind + 0)).drop ind = [] :=
      List.drop_eq_nil_of_le (by rw [List.length_take]; omega)
    rw [h1]
    simp
  | succ d ih =>
    intro l hl
    have hi : ind < ind + (d + 1) := by omega
    have hidx : ind + (d + 1) - 1 = ind + d := by omega
    have hd : ind + d < l.length := by omega
    rw [shiftLoop]
    rw [if_pos hi, hidx, List.getElem?_eq_getElem hd]
    show shiftLoop ind (l.set (ind + (d + 1)) l[ind + d]) (ind + d) = _
    have hlen' : ind + d < (l.set (ind + (d + 1)) l[ind + d]).length := by
      rw [List.length_set]; omega
    have := ih (l.set (ind + (d + 1)) l[ind + d]) hlen'
    rw [this]
    have e1 : (l.set (ind + (d + 1)) l[ind + d]).take (ind + 1) = l.take (ind + 1) :=
      take_set_of_le _ l (by omega)
    have e2 : (l.set (ind + (d + 1)) l[ind + d]).take (ind + d) = l.take (ind + d) :=
      take_set_of_le _ l (by omega)
    have e3 : (l.set (ind + (d + 1)) l[ind + d]).drop (ind + d + 1) =
        l[ind + d] :: l.drop (ind + d + 2) := by
      rw [List.drop_set]
      rw [if_neg (by omega)]
      have : ind + (d + 1) - (ind + d + 1) = 0 := by omega
      rw [this, List.drop_eq_getElem_cons (by omega : ind + d + 1 < l.length)]
      rfl
    rw [e1, e2, e3]
    have e5 : ind + (d + 1) + 1 = ind + d + 2 := by omega
    rw [e5]
    have e4 : (l.take (ind + (d + 1))).drop ind =
        (l.take (ind + d)).drop ind ++ [l[ind + d]] := by
      have ht : l.take (ind + d + 1) = l.take (ind + d) ++ [l[ind + d]] := by
        rw [← List.take_concat_get l (ind + d) hd, List.concat_eq_append]
      have : ind + (d + 1) = ind + d + 1 := by omega
      rw [this, ht, List.drop_append_of_le_length (by rw [List.length_take]; omega)]
    rw [e4]
    simp

/-- What the left-shift loop of `erase` computes: positions `< i` untouched,
positions `[i, sz - 2]` receive the element one slot to their right, and the
last slot keeps its value. -/
theorem eraseLoop_eq {α : Type} :
    ∀ (d : Nat) (l : List α) (i : Nat), l.length = i + 1 + d →
      eraseLoop l i = l.take i ++ l.drop (i + 1) ++ l.drop (l.length - 1) := by
  intro d
  induction d with
  | zero =>
    intro l i hl
    rw [eraseLoop]
    rw [if_neg (by omega)]
    have h1 : l.drop (i + 1) = [] := List.drop_eq_nil_of_le (by omega)
    have h2 : l.length - 1 = i := by omega
    have h3 : l.drop i = [l[i]] := by
      rw [List.drop_eq_getElem_cons (by omega : i < l.length), h1]
    rw [h1, h2, h3]
    have h4 : l.take i ++ [l[i]] = l.take (i + 1) := by
      rw [← List.take_concat_get l i (by omega), List.concat_eq_append]
    simp only [List.append_nil]
    rw [h4, List.take_of_length_le (by omega)]
  | succ d ih =>
    intro l i hl
    have hguard : i + 1 < l.length := by omega
    rw [eraseLoop]
    rw [if_pos hguard, List.getElem?_eq_getElem hguard]
    show eraseLoop (l.set i l[i + 1]) (i + 1) = _
    have hlen' : (l.set i l[i + 1]).length = (i + 1) + 1 + d := by
      rw [List.length_set]; omega
    rw [ih (l.set i l[i + 1]) (i + 1) hlen']
    have e1 : (l.set i l[i + 1]).take (i + 1) = l.take i ++ [l[i + 1]] := by
      rw [List.set_take, take_succ_set_last l i _ (by omega)]
    have e2 : (l.set i l[i + 1]).drop (i + 2) = l.drop (i + 2) :=
      List.drop_set_of_lt _ l (by omega)
    have e3 : (l.set i l[i + 1]).drop ((l.set i l[i + 1]).length - 1) =
        l.drop (l.length - 1) := by
      rw [List.length_set]
      exact List.drop_set_of_lt _ l (by omega)
    rw [e1, e2, e3]
    have e4 : l.drop (i + 1) = l[i + 1] :: l.drop (i + 2) :=
      List.drop_eq_getElem_cons hguard
    rw [e4]
    simp

/-- Destroying the last slot after the left-shift loop yields exactly the
list with position `i` removed. -/
theorem eraseLoop_dropLast {α : Type} (l : List α) (i : Nat) (h : i < l.length) :
    (eraseLoop l i).dropLast = l.take i ++ l.drop (i + 1) := by
  have hlen : l.length = i + 1 + (l.length - 1 - i) := by omega
  rw [eraseLoop_eq (l.length - 1 - i) l i hlen]
  have hlast : l.drop (l.length - 1) = [l[l.length - 1]] := by
    rw [List.drop_eq_getElem_cons (by omega : l.length - 1 < l.length)]
    rw [List.drop_eq_nil_of_le (by omega : l.length ≤ l.length - 1 + 1)]
  rw [hlast, List.dropLast_concat]

/-- `ensure_capacity` with an infallible element copy always succeeds and
leaves the state described by `ensuredPure`. -/
theorem ensureCapacity_pure {α : Type} (v : Vec α) (need : Nat) :
    ensureCapacity pureCopy v need = (true, ensuredPure v need) := by
  unfold ensureCapacity ensuredPure
  split
  · simp
  · simp [copyElems_pure]

/-- Growing the capacity does not touch the elements. -/
theorem ensuredPure_data {α : Type} (v : Vec α) (need : Nat) :
    (ensuredPure v need).data = v.data := by
  unfold ensuredPure
  split <;> rfl

/-- After `ensure_capacity(need)` the capacity suffices for `need`. -/
theorem ensuredPure_cap_ge {α : Type} (v : Vec α) (need : Nat) :
    need ≤ (ensuredPure v need).cap := by
  unfold ensuredPure
  split
  · assumption
  · obtain ⟨k, hk1, hk2, -⟩ :=
      growLoop_spec need (if v.cap = 0 then 1 else v.cap) need (by omega)
        (by split <;> omega)
    simpa [hk1] using hk2

/-- `ensure_capacity` preserves the null-buffer/zero-capacity link. -/
theorem ensuredPure_hasBuf {α : Type} (v : Vec α) (need : Nat)
    (hv : v.hasBuf = false ↔ v.cap = 0) :
    ((ensuredPure v need).hasBuf = false ↔ (ensuredPure v need).cap = 0) := by
  by_cases hc : need ≤ v.cap
  · simpa [ensuredPure, hc] using hv
  · have hcap := ensuredPure_cap_ge v need
    simp only [ensuredPure, hc, if_false] at hcap ⊢
    simp only [Bool.true_eq_false, false_iff]
    omega

/-- `ensure_capacity` keeps the capacity a power of two (or zero):
the doubled capacity is `max(1, cap) * 2 ^ k`. -/
theorem ensuredPure_pow2 {α : Type} (v : Vec α) (need : Nat)
    (hv : pow2cap v) : pow2cap (ensuredPure v need) := by
  unfold ensuredPure pow2cap
  split
  · exact hv
  · right
    obtain ⟨k, hk1, -, -⟩ :=
      growLoop_spec need (if v.cap = 0 then 1 else v.cap) need (by omega)
        (by split <;> omega)
    rcases hv with h0 | ⟨j, hj⟩
    · refine ⟨k, ?_⟩
      show growLoop (if v.cap = 0 then 1 else v.cap) need = 2 ^ k
      rw [hk1, h0]
      simp
    · refine ⟨j + k, ?_⟩
      show growLoop (if v.cap = 0 then 1 else v.cap) need = 2 ^ (j + k)
      have hne : v.cap ≠ 0 := by rw [hj]; positivity
      rw [hk1, if_neg hne, hj, pow_add]

/-- `insert(ind, value)` with an infallible element type, in-range case:
it returns an iterator to `ind` and the state holds the old elements with
`value` inserted at position `ind`, over the ensured capacity. -/
theorem insertAt_pure {α : Type} (self : Nat) (v : Vec α) (ind : Nat) (x : α)
    (h : ind ≤ v.data.length) :
    insertAt pureCopy self v ind x =
      (.ok ⟨self, ind⟩,
        { ensuredPure v (v.data.length + 1) with
            data := v.data.take ind ++ x :: v.data.drop ind }) := by
  unfold insertAt
  rw [if_neg (by omega)]
  simp only [ensureCapacity_pure, ensuredPure_data, pureCopy]
  by_cases hind : ind = v.data.length
  · subst hind
    simp
  · rw [if_neg hind]
    have hlt : ind < v.data.length := by omega
    have hlen1 : v.data.length - 1 < v.data.length := by omega
    rw [List.getElem?_eq_getElem hlen1]
    have hshift :
        (shiftLoop ind (v.data ++ [v.data[v.data.length - 1]])
            (v.data.length - 1)).set ind x =
          v.data.take ind ++ x :: v.data.drop ind := by
      obtain ⟨last, hlast⟩ : ∃ a, v.data[v.data.length - 1] = a := ⟨_, rfl⟩
      rw [hlast]
      have hd : v.data.length - 1 = ind + (v.data.length - 1 - ind) := by omega
      have hlen2 : ind + (v.data.length - 1 - ind) <
          (v.data ++ [last]).length := by
        rw [List.length_append]; simp; omega
      rw [hd, shiftLoop_eq ind (v.data.length - 1 - ind) _ hlen2]
      have e1 : (v.data ++ [last]).take (ind + 1) = v.data.take (ind + 1) :=
        List.take_append_of_le_length (by omega)
      have e2 : (v.data ++ [last]).take (ind + (v.data.length - 1 - ind)) =
          v.data.take (ind + (v.data.length - 1 - ind)) :=
        List.take_append_of_le_length (by omega)
      have e3 : (v.data ++ [last]).drop
          (ind + (v.data.length - 1 - ind) + 1) = [last] := by
        rw [show ind + (v.data.length - 1 - ind) + 1 = v.data.length by omega]
        exact List.drop_left v.data _
      rw [e1, e2, e3]
      rw [List.append_assoc]
      rw [List.set_append_left _ _ (by rw [List.length_take]; omega)]
      rw [take_succ_set_last v.data ind x hlt]
      have hfinal : (v.data.take (ind + (v.data.length - 1 - ind))).drop ind ++
          [last] = v.data.drop ind := by
        have hsplit : v.data = v.data.take (v.data.length - 1) ++ [last] := by
          rw [← hlast, ← List.concat_eq_append,
            List.take_concat_get v.data (v.data.length - 1) hlen1,
            List.take_of_length_le (by omega)]
        rw [show ind + (v.data.length - 1 - ind) = v.data.length - 1 by omega]
        conv_rhs => rw [hsplit]
        rw [List.drop_append_of_le_length (by rw [List.length_take]; omega)]
      rw [hfinal]
      simp
    simp only [hshift]

/-- `insert(ind, value)` out of range: `index_out_of_bound`, state
untouched, for any element copy behaviour. -/
theorem insertAt_oob {α : Type} (copy : α → Option α) (self : Nat) (v : Vec α)
    (ind : Nat) (x : α) (h : v.data.length < ind) :
    insertAt copy self v ind x = (.error .indexOutOfBound, v) := by
  unfold insertAt
  rw [if_pos h]

/-- `push_back(value)` with an infallible element type: appends over the
ensured capacity. -/
theorem pushBack_pure {α : Type} (v : Vec α) (x : α) :
    pushBack pureCopy v x =
      (.ok (), { ensuredPure v (v.data.length + 1) with
        data := v.data ++ [x] }) := by
  unfold pushBack
  simp only [ensureCapacity_pure, ensuredPure_data, pureCopy]

/-- `erase(iterator)`, valid case: returns an iterator to the erased
position and removes exactly that element. -/
theorem eraseIt_ok {α : Type} (self : Nat) (v : Vec α) (pos : Iter)
    (ho : pos.owner = self) (hi : pos.idx < v.data.length) :
    eraseIt self v pos =
      (.ok ⟨self, pos.idx⟩,
        { v with data := v.data.take pos.idx ++ v.data.drop (pos.idx + 1) }) := by
  unfold eraseIt
  rw [if_neg (by omega)]
  by_cases hlast : pos.idx = v.data.length - 1
  · rw [if_pos hlast]
    have hdrop : v.data.drop (pos.idx + 1) = [] :=
      List.drop_eq_nil_of_le (by omega)
    have htake : v.data.dropLast = v.data.take pos.idx := by
      rw [List.dropLast_eq_take, hlast]
    rw [htake, hdrop, ← hlast, List.append_nil]
  · rw [if_neg hlast]
    rw [eraseLoop_dropLast v.data pos.idx hi]

/-- `erase(iterator)`, invalid case: foreign owner or index at/past the
size. -/
theorem eraseIt_invalid {α : Type} (self : Nat) (v : Vec α) (pos : Iter)
    (h : pos.owner ≠ self ∨ v.data.length ≤ pos.idx) :
    eraseIt self v pos = (.error .invalidIterator, v) := by
  unfold eraseIt
  rw [if_pos h]

/-- A successful `ensure_capacity` does not change the number of live
elements. -/
theorem ensureCapacity_length {α : Type} (copy : α → Option α) (v v1 : Vec α)
    (need : Nat) (h : ensureCapacity copy v need = (true, v1)) :
    v1.data.length = v.data.length := by
  unfold ensureCapacity at h
  split at h
  · cases h; rfl
  · revert h
    cases hc : copyElems copy v.data with
    | none => intro h; cases h
    | some nd =>
      intro h
      cases h
      exact copyElems_length copy v.data nd hc

/-- The copy constructor with an infallible element copy. -/
theorem copyCtor_pure {α : Type} (w : Vec α) :
    copyCtor pureCopy w =
      some (if w.data.length = 0 then ⟨[], 0, false⟩
        else ⟨w.data, w.data.length, true⟩) := by
  unfold copyCtor
  split
  · rfl
  · simp [copyElems_pure]

/-- The index-based `insert` never reports `invalid_iterator` (its failures
are `index_out_of_bound` or an element-copy error). -/
theorem insertAt_no_invalid {α : Type} (copy : α → Option α) (self : Nat)
    (v : Vec α) (ind : Nat) (x : α) :
    (insertAt copy self v ind x).1 ≠ Except.error VErr.invalidIterator := by
  unfold insertAt
  split
  · simp
  · split
    · simp
    · split
      · split <;> simp
      · split
        · simp
        · split <;> simp

/-! ## Invariant preservation -/

/-- `push_back` preserves the size/capacity/null-buffer invariant. -/
theorem goodState_push {α : Type} (v : Vec α) (x : α) (h : goodState v) :
    goodState (pushBack pureCopy v x).2 := by
  rw [pushBack_pure]
  refine ⟨?_, ensuredPure_hasBuf v (v.data.length + 1) h.2⟩
  show (v.data ++ [x]).length ≤ (ensuredPure v (v.data.length + 1)).cap
  have := ensuredPure_cap_ge v (v.data.length + 1)
  simp only [List.length_append, List.length_cons, List.length_nil]
  omega

/-- `pop_back` preserves the invariant. -/
theorem goodState_pop {α : Type} (v : Vec α) (h : goodState v) :
    goodState (popBack v).2 := by
  unfold popBack
  split
  · exact h
  · refine ⟨?_, h.2⟩
    show v.data.dropLast.length ≤ v.cap
    have := h.1
    rw [List.length_dropLast]
    omega

/-- `insert` preserves the invariant. -/
theorem goodState_insertAt {α : Type} (self : Nat) (v : Vec α) (ind : Nat)
    (x : α) (h : goodState v) : goodState (insertAt pureCopy self v ind x).2 := by
  by_cases hind : ind ≤ v.data.length
  · rw [insertAt_pure self v ind x hind]
    refine ⟨?_, ensuredPure_hasBuf v (v.data.length + 1) h.2⟩
    show (v.data.take ind ++ x :: v.data.drop ind).length ≤
      (ensuredPure v (v.data.length + 1)).cap
    have := ensuredPure_cap_ge v (v.data.length + 1)
    simp only [List.length_append, List.length_cons, List.length_take,
      List.length_drop]
    omega
  · rw [insertAt_oob pureCopy self v ind x (by omega)]
    exact h

/-- Iterator-based `insert` preserves the invariant. -/
theorem goodState_insertIt {α : Type} (self : Nat) (v : Vec α) (pos : Iter)
    (x : α) (h : goodState v) : goodState (insertIt pureCopy self v pos x).2 := by
  unfold insertIt
  split
  · exact h
  · exact goodState_insertAt self v pos.idx x h

/-- Iterator-based `erase` preserves the invariant. -/
theorem goodState_eraseIt {α : Type} (self : Nat) (v : Vec α) (pos : Iter)
    (h : goodState v) : goodState (eraseIt self v pos).2 := by
  by_cases hv : pos.owner ≠ self ∨ v.data.length ≤ pos.idx
  · rw [eraseIt_invalid self v pos hv]
    exact h
  · push_neg at hv
    rw [eraseIt_ok self v pos hv.1 hv.2]
    refine ⟨?_, h.2⟩
    show (v.data.take pos.idx ++ v.data.drop (pos.idx + 1)).length ≤ v.cap
    have := h.1
    simp only [List.length_append, List.length_take, List.length_drop]
    omega

/-- Index-based `erase` preserves the invariant. -/
theorem goodState_eraseAt {α : Type} (self : Nat) (v : Vec α) (ind : Nat)
    (h : goodState v) : goodState (eraseAt self v ind).2 := by
  unfold eraseAt
  split
  · exact h
  · exact goodState_eraseIt self v ⟨self, ind⟩ h

/-- `clear` preserves the invariant. -/
theorem goodState_clear {α : Type} (v : Vec α) (h : goodState v) :
    goodState (clearOp v) := by
  exact ⟨by simp [clearOp], h.2⟩

/-- A state built by the copy constructor satisfies the invariant
(unconditionally: its capacity is its own size). -/
theorem goodState_copyCtor {α : Type} (w c : Vec α)
    (h : copyCtor pureCopy w = some c) : goodState c := by
  rw [copyCtor_pure] at h
  cases h
  split
  · exact ⟨by simp, by simp⟩
  · rename_i hne
    exact ⟨le_refl _, by simp [hne]⟩

/-- `operator=` preserves the invariant. -/
theorem goodState_assign {α : Type} (same : Bool) (v w : Vec α)
    (hv : goodState v) : goodState (assignOp pureCopy same v w).2 := by
  cases same
  · unfold assignOp
    rw [copyCtor_pure]
    simp only [Bool.false_eq_true, if_false]
    exact goodState_copyCtor w _ (copyCtor_pure w)
  · exact hv

/-- `push_back` keeps the capacity zero-or-a-power-of-two. -/
theorem pow2_push {α : Type} (v : Vec α) (x : α) (h : pow2cap v) :
    pow2cap (pushBack pureCopy v x).2 := by
  rw [pushBack_pure]
  exact ensuredPure_pow2 v (v.data.length + 1) h

/-- `pop_back` keeps the capacity zero-or-a-power-of-two. -/
theorem pow2_pop {α : Type} (v : Vec α) (h : pow2cap v) : pow2cap (popBack v).2 := by
  unfold popBack
  split
  · exact h
  · exact h

/-- `insert` keeps the capacity zero-or-a-power-of-two. -/
theorem pow2_insertAt {α : Type} (self : Nat) (v : Vec α) (ind : Nat) (x : α)
    (h : pow2cap v) : pow2cap (insertAt pureCopy self v ind x).2 := by
  by_cases hind : ind ≤ v.data.length
  · rw [insertAt_pure self v ind x hind]
    exact ensuredPure_pow2 v (v.data.length + 1) h
  · rw [insertAt_oob pureCopy self v ind x (by omega)]
    exact h

/-- Iterator-based `insert` keeps the capacity zero-or-a-power-of-two. -/
theorem pow2_insertIt {α : Type} (self : Nat) (v : Vec α) (pos : Iter) (x : α)
    (h : pow2cap v) : pow2cap (insertIt pureCopy self v pos x).2 := by
  unfold insertIt
  split
  · exact h
  · exact pow2_insertAt self v pos.idx x h

/-- Iterator-based `erase` keeps the capacity zero-or-a-power-of-two. -/
theorem pow2_eraseIt {α : Type} (self : Nat) (v : Vec α) (pos : Iter)
    (h : pow2cap v) : pow2cap (eraseIt self v pos).2 := by
  unfold eraseIt
  split
  · exact h
  · split
    · exact h
    · exact h

/-- Index-based `erase` keeps the capacity zero-or-a-power-of-two. -/
theorem pow2_eraseAt {α : Type} (self : Nat) (v : Vec α) (ind : Nat)
    (h : pow2cap v) : pow2cap (eraseAt self v ind).2 := by
  unfold eraseAt
  split
  · exact h
  · exact pow2_eraseIt self v ⟨self, ind⟩ h

/-- `clear` keeps the capacity zero-or-a-power-of-two. -/
theorem pow2_clear {α : Type} (v : Vec α) (h : pow2cap v) :
    pow2cap (clearOp v) := h

/-! ## Claims -/

/-- C1: for every sequence and every `ind ≤ sz`, `insert(ind, v)` succeeds:
it returns an iterator to position `ind`, the elements before `ind` are
unchanged, the elements formerly at `[ind, sz)` are shifted one slot right
with `v` at position `ind`, and the size grows by one.  For every `ind > sz`
it fails with `IndexOutOfBound` and leaves the sequence unchanged.  The
non-end algorithm (copy-construct the last element into slot `sz`, assign
`[ind + 1 .. sz]` from the prior slot in descending order, assign `v` into
slot `ind`) is the body of `insertAt`/`shiftLoop` and is proved to produce
exactly this insertion. -/
theorem claim_C1 {α : Type} (self : Nat) (v : Vec α) (ind : Nat) (x : α) :
    (ind ≤ v.data.length →
      (insertAt pureCopy self v ind x).1 = .ok ⟨self, ind⟩ ∧
      (insertAt pureCopy self v ind x).2.data =
        v.data.take ind ++ x :: v.data.drop ind ∧
      (insertAt pureCopy self v ind x).2.data.length = v.data.length + 1) ∧
    (v.data.length < ind →
      insertAt pureCopy self v ind x = (.error .indexOutOfBound, v)) := by
  constructor
  · intro h
    rw [insertAt_pure self v ind x h]
    refine ⟨rfl, rfl, ?_⟩
    show (v.data.take ind ++ x :: v.data.drop ind).length = v.data.length + 1
    simp only [List.length_append, List.length_cons, List.length_take,
      List.length_drop]
    omega
  · intro h
    exact insertAt_oob pureCopy self v ind x h

/-- Witness for C1 at a concrete input: inserting 9 at position 1 of
`[10, 20, 30]`, and the out-of-bound failure at position 4. -/
theorem claim_C1_witness :
    ((insertAt pureCopy 0 (⟨[10, 20, 30], 4, true⟩ : Vec Nat) 1 9).1 =
      .ok ⟨0, 1⟩ ∧
    (insertAt pureCopy 0 (⟨[10, 20, 30], 4, true⟩ : Vec Nat) 1 9).2.data =
      [10, 9, 20, 30] ∧
    (insertAt pureCopy 0 (⟨[10, 20, 30], 4, true⟩ : Vec Nat) 1 9).2.data.length = 4) ∧
    insertAt pureCopy 0 (⟨[10, 20, 30], 4, true⟩ : Vec Nat) 4 9 =
      (.error .indexOutOfBound, ⟨[10, 20, 30], 4, true⟩) := by
  constructor
  · have h := (claim_C1 0 (⟨[10, 20, 30], 4, true⟩ : Vec Nat) 1 9).1 (by decide)
    simpa using h
  · exact (claim_C1 0 (⟨[10, 20, 30], 4, true⟩ : Vec Nat) 4 9).2 (by decide)

/-- C2: `erase(index)` fails with `IndexOutOfBound` and leaves the sequence
unchanged when `index ≥ sz`; for `index < sz` it removes exactly the element
at that position, decrements the size, and returns an iterator to `index`,
which equals `end()` of the resulting sequence exactly when the erased
element was the last one. -/
theorem claim_C2 {α : Type} (self : Nat) (v : Vec α) (ind : Nat) :
    (v.data.length ≤ ind →
      eraseAt self v ind = (.error .indexOutOfBound, v)) ∧
    (ind < v.data.length →
      eraseAt self v ind =
        (.ok ⟨self, ind⟩,
          { v with data := v.data.take ind ++ v.data.drop (ind + 1) }) ∧
      (eraseAt self v ind).2.data.length = v.data.length - 1 ∧
      ((⟨self, ind⟩ : Iter) = endIt self (eraseAt self v ind).2 ↔
        ind = v.data.length - 1)) := by
  constructor
  · intro h
    unfold eraseAt
    rw [if_pos h]
  · intro h
    have heq : eraseAt self v ind =
        (.ok ⟨self, ind⟩,
          { v with data := v.data.take ind ++ v.data.drop (ind + 1) }) := by
      unfold eraseAt
      rw [if_neg (by omega)]
      exact eraseIt_ok self v ⟨self, ind⟩ rfl h
    refine ⟨heq, ?_, ?_⟩
    · rw [heq]
      show (v.data.take ind ++ v.data.drop (ind + 1)).length = v.data.length - 1
      simp only [List.length_append, List.length_take, List.length_drop]
      omega
    · rw [heq]
      show (⟨self, ind⟩ : Iter) =
        endIt self { v with data := v.data.take ind ++ v.data.drop (ind + 1) } ↔ _
      simp only [endIt, Iter.mk.injEq, List.length_append, List.length_take,
        List.length_drop, true_and]
      omega

/-- Witness for C2 at concrete inputs: the out-of-bound failure at index 3
of `[10, 20, 30]`, the successful erase at index 1, and the erase of the
last element returning `end()`. -/
theorem claim_C2_witness :
    eraseAt 0 (⟨[10, 20, 30], 4, true⟩ : Vec Nat) 3 =
      (.error .indexOutOfBound, ⟨[10, 20, 30], 4, true⟩) ∧
    eraseAt 0 (⟨[10, 20, 30], 4, true⟩ : Vec Nat) 1 =
      (.ok ⟨0, 1⟩, ⟨[10, 30], 4, true⟩) ∧
    (⟨0, 2⟩ : Iter) = endIt 0 (eraseAt 0 (⟨[10, 20, 30], 4, true⟩ : Vec Nat) 2).2 := by
  refine ⟨?_, ?_, ?_⟩
  · exact (claim_C2 0 (⟨[10, 20, 30], 4, true⟩ : Vec Nat) 3).1 (by decide)
  · have h := ((claim_C2 0 (⟨[10, 20, 30], 4, true⟩ : Vec Nat) 1).2 (by decide)).1
    simpa using h
  · exact (((claim_C2 0 (⟨[10, 20, 30], 4, true⟩ : Vec Nat) 2).2
      (by decide)).2.2).mpr (by decide)

/-- C3: when `need > cap`, the new capacity is `max(1, cap)` doubled until
it reaches `need` (with the doubling steps below it insufficient); on
success every element is copied in index order into the new buffer and the
state adopts it; if any element copy fails, `ensure_capacity` fails and the
sequence is exactly as before the call (strong guarantee). -/
theorem claim_C3 {α : Type} (copy : α → Option α) (v : Vec α) (need : Nat)
    (h : v.cap < need) :
    (need ≤ growLoop (max 1 v.cap) need ∧
      ∃ k : Nat, growLoop (max 1 v.cap) need = max 1 v.cap * 2 ^ k ∧
        ∀ j : Nat, j < k → max 1 v.cap * 2 ^ j < need) ∧
    (∀ nd : List α, copyElems copy v.data = some nd →
      ensureCapacity copy v need =
        (true, ⟨nd, growLoop (max 1 v.cap) need, true⟩)) ∧
    (copyElems copy v.data = none → ensureCapacity copy v need = (false, v)) := by
  have hmx : (if v.cap = 0 then 1 else v.cap) = max 1 v.cap := by
    split <;> omega
  refine ⟨?_, ?_, ?_⟩
  · obtain ⟨k, hk1, hk2, hk3⟩ :=
      growLoop_spec (need - max 1 v.cap) (max 1 v.cap) need (by omega) (by omega)
    exact ⟨by rw [hk1]; exact hk2, ⟨k, hk1, hk3⟩⟩
  · intro nd hnd
    unfold ensureCapacity
    rw [if_neg (by omega)]
    simp only [hnd, hmx]
  · intro hnone
    unfold ensureCapacity
    rw [if_neg (by omega)]
    simp only [hnone]

/-- Witness for C3 at concrete inputs: growing `[5]` (capacity 1) to hold 3
elements doubles the capacity to 4; an always-failing element copy leaves
the vector exactly as it was. -/
theorem claim_C3_witness :
    (⟨[5], 1, true⟩ : Vec Nat).cap < 3 ∧
    3 ≤ growLoop (max 1 (⟨[5], 1, true⟩ : Vec Nat).cap) 3 ∧
    ensureCapacity pureCopy (⟨[5], 1, true⟩ : Vec Nat) 3 = (true, ⟨[5], 4, true⟩) ∧
    ensureCapacity (fun _ => none) (⟨[5], 1, true⟩ : Vec Nat) 3 =
      (false, ⟨[5], 1, true⟩) := by
  have h1 := claim_C3 pureCopy (⟨[5], 1, true⟩ : Vec Nat) 3 (by decide)
  have h2 := claim_C3 (fun _ => none) (⟨[5], 1, true⟩ : Vec Nat) 3 (by decide)
  refine ⟨by decide, h1.1.1, ?_, ?_⟩
  · have h := h1.2.1 [5] (by simp [copyElems, pureCopy])
    rw [h]
    have hg : growLoop (max 1 (⟨[5], 1, true⟩ : Vec Nat).cap) 3 = 4 := by
      simp [growLoop]
    rw [hg]
  · exact h2.2.2 (by simp [copyElems])

/-- Counterexample to C4 as stated: the state obtained by three
`push_back`s (giving `[10, 20, 30]` with capacity 4) followed by a copy
construction is reachable, yet its capacity is 3 — neither zero nor a power
of two — because the copy constructor sets the capacity to the source's
size. -/
theorem claim_C4_counterexample :
    Reach (⟨[10, 20, 30], 3, true⟩ : Vec Nat) ∧
      ¬ ((⟨[10, 20, 30], 3, true⟩ : Vec Nat).cap = 0 ∨
        ∃ k : Nat, (⟨[10, 20, 30], 3, true⟩ : Vec Nat).cap = 2 ^ k) := by
  constructor
  · have h1 := Reach.push (emptyVec Nat) 10 Reach.empty
    rw [show (pushBack pureCopy (emptyVec Nat) 10).2 = ⟨[10], 1, true⟩ from by
      simp [pushBack, ensureCapacity, growLoop, copyElems, pureCopy, emptyVec]] at h1
    have h2 := Reach.push _ 20 h1
    rw [show (pushBack pureCopy (⟨[10], 1, true⟩ : Vec Nat) 20).2 =
        ⟨[10, 20], 2, true⟩ from by
      simp [pushBack, ensureCapacity, growLoop, copyElems, pureCopy]] at h2
    have h3 := Reach.push _ 30 h2
    rw [show (pushBack pureCopy (⟨[10, 20], 2, true⟩ : Vec Nat) 30).2 =
        ⟨[10, 20, 30], 4, true⟩ from by
      simp [pushBack, ensureCapacity, growLoop, copyElems, pureCopy]] at h3
    exact Reach.copy _ _ h3 (by rw [copyCtor_pure]; rfl)
  · rintro (h0 | ⟨k, hk⟩)
    · exact absurd h0 (by decide)
    · have hk3 : (3 : Nat) = 2 ^ k := hk
      rcases k with _ | _ | k2
      · simp at hk3
      · simp at hk3
      · have h4 : (4 : Nat) ≤ 2 ^ (k2 + 2) := by
          have := Nat.pow_le_pow_right (by norm_num : 1 ≤ 2) (by omega : 2 ≤ k2 + 2)
          simpa using this
        omega

/-- C4 as amended: every state reachable by the public operations satisfies
`0 ≤ sz ≤ cap` and has a null buffer exactly when `cap = 0`; the remaining
clause — the capacity is zero or a power of two — holds for the states
reachable without copy construction and copy assignment (those two
operations set the capacity to the source's size, which need not be a power
of two). -/
theorem claim_C4_amended {α : Type} (v w : Vec α) (h1 : Reach v)
    (h2 : ReachNC w) :
    (v.data.length ≤ v.cap ∧ (v.hasBuf = false ↔ v.cap = 0)) ∧
    (w.cap = 0 ∨ ∃ k : Nat, w.cap = 2 ^ k) := by
  constructor
  · show goodState v
    induction h1 with
    | empty => exact ⟨by simp [emptyVec], by simp [emptyVec]⟩
    | push v x _ ih => exact goodState_push v x ih
    | pop v _ ih => exact goodState_pop v ih
    | ins v ind x _ ih => exact goodState_insertAt 0 v ind x ih
    | insIt v pos x _ ih => exact goodState_insertIt 0 v pos x ih
    | er v ind _ ih => exact goodState_eraseAt 0 v ind ih
    | erIt v pos _ ih => exact goodState_eraseIt 0 v pos ih
    | clr v _ ih => exact goodState_clear v ih
    | copy c w _ hc _ => exact goodState_copyCtor w c hc
    | assign v w same _ _ ihv _ => exact goodState_assign same v w ihv
    | swapL v w _ _ _ ihw => exact ihw
    | swapR v w _ _ ihv _ => exact ihv
  · show pow2cap w
    induction h2 with
    | empty => exact Or.inl rfl
    | push v x _ ih => exact pow2_push v x ih
    | pop v _ ih => exact pow2_pop v ih
    | ins v ind x _ ih => exact pow2_insertAt 0 v ind x ih
    | insIt v pos x _ ih => exact pow2_insertIt 0 v pos x ih
    | er v ind _ ih => exact pow2_eraseAt 0 v ind ih
    | erIt v pos _ ih => exact pow2_eraseIt 0 v pos ih
    | clr v _ ih => exact pow2_clear v ih
    | swapL v w _ _ _ ihw => exact ihw
    | swapR v w _ _ ihv _ => exact ihv

/-- Witness for the amended C4 at a concrete reachable state. -/
theorem claim_C4_amended_witness :
    Reach (emptyVec Nat) ∧ ReachNC (emptyVec Nat) ∧
    (((emptyVec Nat).data.length ≤ (emptyVec Nat).cap ∧
      ((emptyVec Nat).hasBuf = false ↔ (emptyVec Nat).cap = 0)) ∧
     ((emptyVec Nat).cap = 0 ∨ ∃ k : Nat, (emptyVec Nat).cap = 2 ^ k)) :=
  ⟨Reach.empty, ReachNC.empty,
    claim_C4_amended (emptyVec Nat) (emptyVec Nat) Reach.empty ReachNC.empty⟩

/-- C5: the copy constructor produces a deep copy — every element is copied
in index order and the new buffer's capacity equals the source's size, not
its capacity — and copy assignment (temporary copy, then swap) succeeds with
exactly the copied state and leaves the target untouched when the copy of
any element fails. -/
theorem claim_C5 {α : Type} (copy : α → Option α) (dst src : Vec α) :
    (∀ c : Vec α, copyCtor copy src = some c →
      c.cap = src.data.length ∧
      copyElems copy src.data = some c.data ∧
      assignOp copy false dst src = (true, c)) ∧
    (copyCtor copy src = none → assignOp copy false dst src = (false, dst)) := by
  constructor
  · intro c hc
    have hassign : assignOp copy false dst src = (true, c) := by
      unfold assignOp
      rw [if_neg (by simp)]
      simp only [hc]
    have hfacts : c.cap = src.data.length ∧
        copyElems copy src.data = some c.data := by
      unfold copyCtor at hc
      by_cases h0 : src.data.length = 0
      · rw [if_pos h0] at hc
        cases hc
        refine ⟨h0.symm, ?_⟩
        rw [List.length_eq_zero.mp h0]
        rfl
      · rw [if_neg h0] at hc
        revert hc
        cases hcc : copyElems copy src.data with
        | none => intro hc; cases hc
        | some nd =>
          intro hc
          cases hc
          exact ⟨rfl, rfl⟩
    exact ⟨hfacts.1, hfacts.2, hassign⟩
  · intro hnone
    unfold assignOp
    rw [if_neg (by simp)]
    simp only [hnone]

/-- Witness for C5 at concrete inputs: copying `[1, 2]` held with capacity
4 yields capacity 2; with an always-failing element copy the assignment
target `[7]` is untouched. -/
theorem claim_C5_witness :
    copyCtor pureCopy (⟨[1, 2], 4, true⟩ : Vec Nat) = some ⟨[1, 2], 2, true⟩ ∧
    (⟨[1, 2], 2, true⟩ : Vec Nat).cap = (⟨[1, 2], 4, true⟩ : Vec Nat).data.length ∧
    assignOp pureCopy false (⟨[7], 1, true⟩ : Vec Nat) ⟨[1, 2], 4, true⟩ =
      (true, ⟨[1, 2], 2, true⟩) ∧
    copyCtor (fun _ : Nat => none) (⟨[1, 2], 4, true⟩ : Vec Nat) = none ∧
    assignOp (fun _ : Nat => none) false (⟨[7], 1, true⟩ : Vec Nat)
      ⟨[1, 2], 4, true⟩ = (false, ⟨[7], 1, true⟩) := by
  have hcopy : copyCtor pureCopy (⟨[1, 2], 4, true⟩ : Vec Nat) =
      some ⟨[1, 2], 2, true⟩ := by decide
  have hnone : copyCtor (fun _ : Nat => none) (⟨[1, 2], 4, true⟩ : Vec Nat) =
      none := by decide
  exact ⟨hcopy,
    ((claim_C5 pureCopy (⟨[7], 1, true⟩ : Vec Nat) _).1 _ hcopy).1,
    ((claim_C5 pureCopy (⟨[7], 1, true⟩ : Vec Nat) _).1 _ hcopy).2.2,
    hnone,
    (claim_C5 (fun _ => none) (⟨[7], 1, true⟩ : Vec Nat) _).2 hnone⟩

/-- C6: iterator-based `insert` fails with `InvalidIterator` exactly when
the iterator's owner is not this vector (an owned end iterator, index `sz`,
is accepted), while iterator-based `erase` fails with `InvalidIterator`
when the owner differs or the index is `≥ sz` — so the end iterator is
accepted by `insert` and rejected by `erase`. -/
theorem claim_C6 {α : Type} (self : Nat) (v : Vec α) (pos : Iter) (x : α) :
    ((insertIt pureCopy self v pos x).1 = .error .invalidIterator ↔
      pos.owner ≠ self) ∧
    ((eraseIt self v pos).1 = .error .invalidIterator ↔
      (pos.owner ≠ self ∨ v.data.length ≤ pos.idx)) ∧
    (insertIt pureCopy self v (endIt self v) x).1 = .ok ⟨self, v.data.length⟩ ∧
    (eraseIt self v (endIt self v)).1 = .error .invalidIterator := by
  refine ⟨?_, ?_, ?_, ?_⟩
  · constructor
    · intro h
      by_contra ho
      unfold insertIt at h
      rw [if_neg (by simp [ho])] at h
      exact insertAt_no_invalid pureCopy self v pos.idx x h
    · intro ho
      unfold insertIt
      rw [if_pos ho]
  · constructor
    · intro h
      by_contra hv
      rw [not_or] at hv
      have ho : pos.owner = self := not_not.mp hv.1
      have hi : pos.idx < v.data.length := Nat.not_le.mp hv.2
      rw [eraseIt_ok self v pos ho hi] at h
      simp at h
    · intro hv
      rw [eraseIt_invalid self v pos hv]
  · unfold insertIt
    rw [if_neg (by simp [endIt])]
    show (insertAt pureCopy self v (endIt self v).idx x).1 = _
    have hidx : (endIt self v).idx = v.data.length := rfl
    rw [hidx, insertAt_pure self v v.data.length x (le_refl _)]
  · rw [eraseIt_invalid self v (endIt self v) (Or.inr (by simp [endIt]))]

/-- C7: `insert(size(), v)` is observationally equivalent to
`push_back(v)`: for any element-copy behaviour they produce the same
post-state (elements, size, capacity, buffer) and succeed or fail
together. -/
theorem claim_C7 {α : Type} (copy : α → Option α) (self : Nat) (v : Vec α)
    (x : α) :
    (insertAt copy self v v.data.length x).2 = (pushBack copy v x).2 ∧
    (insertAt copy self v v.data.length x).1.isOk = (pushBack copy v x).1.isOk := by
  unfold insertAt pushBack
  rw [if_neg (by omega)]
  rcases hE : ensureCapacity copy v (v.data.length + 1) with ⟨b, v1⟩
  cases b
  · simp only [hE]
    exact ⟨by trivial, by trivial⟩
  · have hl := ensureCapacity_length copy v v1 (v.data.length + 1) hE
    simp only [hE]
    rw [if_pos hl.symm]
    cases hcx : copy x with
    | none =>
      simp only [hcx]
      exact ⟨by trivial, by trivial⟩
    | some y =>
      simp only [hcx]
      exact ⟨by trivial, by trivial⟩

/-- Counterexample to C8 as stated: `raw_alloc(0)` does not return a null
handle without allocating — it unconditionally forwards
`0 * sizeof(T) = 0` bytes to `::operator new` (one allocator call) and,
with storage available, receives a non-null zero-byte block. -/
theorem claim_C8_counterexample :
    (rawAlloc (fun _ => true) 1 0).1 = .ok (Handle.block 0) ∧
    (rawAlloc (fun _ => true) 1 0).2 = 1 ∧
    ¬ (rawAlloc (fun _ => true) 1 0).1 = .ok Handle.null := by
  refine ⟨rfl, rfl, ?_⟩
  simp [rawAlloc, opNew]

/-- C8 as amended: `raw_alloc(n)` forwards `n * sizeof(T)` bytes to
`::operator new` for every `n`, including `n = 0`; when storage is
available it returns a non-null handle to the block (never null), and
otherwise it fails with the `AllocationFailed` kind; exactly one allocator
call is performed in either case. -/
theorem claim_C8_amended (avail : Nat → Bool) (sizeofT n : Nat) :
    (avail (n * sizeofT) = true →
      rawAlloc avail sizeofT n = (.ok (Handle.block (n * sizeofT)), 1)) ∧
    (avail (n * sizeofT) = false →
      rawAlloc avail sizeofT n = (.error .allocationFailed, 1)) := by
  constructor
  · intro h
    unfold rawAlloc opNew
    rw [if_pos h]
  · intro h
    unfold rawAlloc opNew
    rw [if_neg (by simp [h])]

/-- Witness for the amended C8: allocating 2 slots of 4 bytes requests 8
bytes and returns a non-null handle; an unavailable request fails with
`AllocationFailed`. -/
theorem claim_C8_amended_witness :
    ((fun _ : Nat => true) (2 * 4) = true ∧
      rawAlloc (fun _ => true) 4 2 = (.ok (Handle.block 8), 1)) ∧
    ((fun _ : Nat => false) (2 * 4) = false ∧
      rawAlloc (fun _ => false) 4 2 = (.error .allocationFailed, 1)) :=
  ⟨⟨rfl, (claim_C8_amended (fun _ => true) 4 2).1 rfl⟩,
    ⟨rfl, (claim_C8_amended (fun _ => false) 4 2).2 rfl⟩⟩

/-- C9: an iterator owned by this vector whose index exceeds `sz` passes
the owner check of the iterator-based `insert` and is rejected by the
delegated index-based `insert` with `IndexOutOfBound` (not
`InvalidIterator`), leaving the sequence unchanged. -/
theorem claim_C9 {α : Type} (copy : α → Option α) (self : Nat) (v : Vec α)
    (pos : Iter) (x : α) (ho : pos.owner = self)
    (hi : v.data.length < pos.idx) :
    insertIt copy self v pos x = (.error .indexOutOfBound, v) := by
  unfold insertIt
  rw [if_neg (by simp [ho])]
  exact insertAt_oob copy self v pos.idx x hi

/-- Witness for C9 at a concrete input: iterator `(owner 0, index 5)` into
the one-element vector with id 0. -/
theorem claim_C9_witness :
    (⟨0, 5⟩ : Iter).owner = 0 ∧
    (⟨[1], 1, true⟩ : Vec Nat).data.length < (⟨0, 5⟩ : Iter).idx ∧
    insertIt pureCopy 0 (⟨[1], 1, true⟩ : Vec Nat) ⟨0, 5⟩ 9 =
      (.error .indexOutOfBound, ⟨[1], 1, true⟩) :=
  ⟨rfl, by decide,
    claim_C9 pureCopy 0 (⟨[1], 1, true⟩ : Vec Nat) ⟨0, 5⟩ 9 rfl (by decide)⟩

/-- C10: self-assignment is a no-op: the pointer-identity test
`this == &other` short-circuits `operator=` before any temporary is built,
so no element is copied or destroyed and the state is returned unchanged —
for every element-copy behaviour, including one that always fails. -/
theorem claim_C10 {α : Type} (copy : α → Option α) (v : Vec α) :
    assignOp copy true v v = (true, v) := rfl

end VectorHpp
